import Mathlib

/-!
Verification of the MixEn content-script core (src/content.ts): dictionary
store, greedy segmenter, sampling selector, spacing-aware renderer, revert,
and URL blacklist pattern handling.  Text is modelled as `List Char`
(JS strings), JS numbers used as ratios as `ℚ`, and `Math.random()` draws
as an explicit stream `rs : Nat → Nat` reduced modulo the bound.
-/

abbrev Str := List Char

/-- Character list of a string literal. -/
def los (s : String) : Str := s.data

/-- JS whitespace (as used by `String.trim` and the regexp class). -/
def jsWs (c : Char) : Bool :=
  [' ', '\t', '\n', '\r', Char.ofNat 0x0b, Char.ofNat 0x0c, Char.ofNat 0xa0,
   Char.ofNat 0xfeff, Char.ofNat 0x2028, Char.ofNat 0x2029, Char.ofNat 0x3000].contains c

/-- `s.trim()`. -/
def trimStr (s : Str) : Str :=
  ((s.dropWhile jsWs).reverse.dropWhile jsWs).reverse

/-- The CJK Unified Ideographs test `code >= 0x4E00 && code <= 0x9FFF`. -/
def isCJK (c : Char) : Bool :=
  decide (0x4E00 ≤ c.toNat ∧ c.toNat ≤ 0x9FFF)

inductive CharKind
  | CJK
  | LATIN
  | SPACE
  | PUNCT
  | OTHER
  deriving DecidableEq

/-- `charKind` from content.ts (branch order as in the source). -/
def charKind (ch : Char) : CharKind :=
  if ch.toNat = 32 ∨ ch = '\n' ∨ ch = '\t' ∨ ch = '\r' then CharKind.SPACE
  else if 0x4E00 ≤ ch.toNat ∧ ch.toNat ≤ 0x9FFF then CharKind.CJK
  else if (48 ≤ ch.toNat ∧ ch.toNat ≤ 57) ∨ (65 ≤ ch.toNat ∧ ch.toNat ≤ 90) ∨
      (97 ≤ ch.toNat ∧ ch.toNat ≤ 122) then CharKind.LATIN
  else CharKind.PUNCT

/-- A dictionary value `{en:[...], py, tag, pos?}`. -/
structure DictEntry where
  en : List Str
  py : Str := []
  tag : Str := []
  pos : Option Str := none
  deriving DecidableEq

/-- `chooseSense`: shortest nonempty sense, ties broken by list order
(the running best is only replaced by a strictly shorter truthy item). -/
def chooseSense (entry : DictEntry) : Str :=
  match entry.en with
  | [] => []
  | b :: _ =>
    entry.en.foldl (fun best s => if s ≠ [] ∧ s.length < best.length then s else best) b

/-- `NOUN_SUFFIX` from content.ts. -/
def NOUN_SUFFIX : List Str :=
  (["tion", "ment", "ness", "ity", "ship", "ance", "ence", "ism", "ist", "age",
    "ery", "or", "er", "ment", "dom", "hood", "acy", "tude", "ure"]).map los

/-- `NOUN_HEADS` from content.ts. -/
def NOUN_HEADS : List Str :=
  (["club", "league", "game", "year", "page", "subscription", "team", "player",
    "policy", "system", "city", "country", "company", "people", "market", "law",
    "right", "time", "university", "school", "teacher", "student", "government",
    "manager", "engineer", "result", "research", "study", "data", "method",
    "model", "problem", "solution", "case", "issue", "service", "product",
    "plan", "project", "area", "region", "river", "mountain", "province",
    "county", "district", "airport", "station", "museum", "library", "network",
    "computer", "program", "software", "hardware", "mobile", "phone", "car",
    "bus", "train", "plane", "house", "room", "home", "office", "doctor",
    "hospital", "money", "price", "cost", "salary", "contract", "agreement",
    "match", "coach", "referee", "stadium"]).map los

/-- `s.split(/\s+/)` (empty chunks dropped). -/
def splitWsAux : Str → Str → List Str
  | [], acc => if acc = [] then [] else [acc.reverse]
  | c :: rest, acc =>
    if jsWs c then
      if acc = [] then splitWsAux rest [] else acc.reverse :: splitWsAux rest []
    else splitWsAux rest (c :: acc)

def splitWs (s : Str) : List Str := splitWsAux s []

/-- `isNounLike` heuristic from content.ts. -/
def isNounLike (en : Str) : Bool :=
  if en = [] then false
  else
    let s := (trimStr en).map Char.toLower
    if s = [] then false
    else if (los "to ").isPrefixOf s then false
    else
      let parts := splitWs s
      let head := parts.getLastD []
      if parts.length = 1 then
        if (los "ing").isSuffixOf head then false
        else if NOUN_SUFFIX.any (fun suf => suf.isSuffixOf head) then true
        else if NOUN_HEADS.contains head then true
        else if 4 ≤ head.length ∧ ¬ head.contains '-' then true
        else false
      else
        if NOUN_HEADS.contains head then true
        else if parts.getD 0 [] = los "to" then false
        else true

/-- `tokenAllowed` from content.ts: the display sense must be a nonempty
whitespace-free token; with `onlyNouns`, POS `n`/`noun` or heuristic. -/
def tokenAllowed (onlyNouns : Bool) (entry : DictEntry) : Bool :=
  let en := chooseSense entry
  if en = [] ∨ en.any jsWs then false
  else if onlyNouns = false then true
  else if entry.pos = some (los "n") ∨ entry.pos = some (los "noun") then true
  else isNounLike en

/-- A segment produced by `segmentChinese`: a single plain character, or a
matched dictionary token. -/
inductive Seg
  | lit (c : Char)
  | tok (w : Str) (entry : DictEntry)
  deriving DecidableEq

/-- The inner `for(let l = maxL; l >= 1; l--)` lookup loop of
`segmentChinese`: try slice lengths from `n` down to `1`, first hit wins. -/
def findMatch (lookup : Str → Option DictEntry) (s : Str) : Nat → Option (Str × DictEntry)
  | 0 => none
  | l + 1 =>
    match lookup (s.take (l + 1)) with
    | some e => some (s.take (l + 1), e)
    | none => findMatch lookup s l

/-- The scan loop of `segmentChinese`; `fuel` bounds the number of loop
iterations (each iteration consumes at least one character, so
`fuel = text.length` is always enough). -/
def segGo (lookup : Str → Option DictEntry) (maxWordLen : Nat) : Nat → Str → List Seg
  | 0, _ => []
  | _ + 1, [] => []
  | fuel + 1, c :: rest =>
    if isCJK c then
      match findMatch lookup (c :: rest) (min maxWordLen (rest.length + 1)) with
      | some (w, e) => Seg.tok w e :: segGo lookup maxWordLen fuel (List.drop w.length (c :: rest))
      | none => Seg.lit c :: segGo lookup maxWordLen fuel rest
    else Seg.lit c :: segGo lookup maxWordLen fuel rest

/-- `segmentChinese` from content.ts (forward maximum matching). -/
def segmentChinese (lookup : Str → Option DictEntry) (maxWordLen : Nat) (text : Str) : List Seg :=
  segGo lookup maxWordLen text.length text

/-- The characters covered by one segment. -/
def segText : Seg → Str
  | Seg.lit c => [c]
  | Seg.tok w _ => w

/-- `Math.max(1, Math.floor(n * ratio))`. -/
def sampleTarget (n : Nat) (ratio : ℚ) : Nat :=
  max 1 (Int.toNat (Rat.floor ((n : ℚ) * ratio)))

/-- The `while(idxs.size < target && i < n*3)` loop of `sampleIndices`;
`fuel` counts the remaining iterations of `i` up to `n*3`, and each random
draw `Math.floor(Math.random() * n)` is modelled as `rs i % n`. -/
def sampleGo (n target : Nat) (rs : Nat → Nat) : Nat → Nat → Finset Nat → Finset Nat
  | 0, _, acc => acc
  | fuel + 1, i, acc =>
    if acc.card < target then sampleGo n target rs fuel (i + 1) (insert (rs i % n) acc)
    else acc

/-- `sampleIndices` from content.ts. -/
def sampleIndices (n : Nat) (ratio : ℚ) (rs : Nat → Nat) : Finset Nat :=
  sampleGo n (sampleTarget n ratio) rs (3 * n) 0 ∅

/-- A rendered output node: a text node, or the `span.mixen-word` element
produced by `createSpan` (display text, `data-original`, and whether a
leading/trailing space was baked into its text content). -/
inductive RNode
  | text (s : Str)
  | span (display : Str) (original : Str) (leadingSpace : Bool) (trailingSpace : Bool)
  deriving DecidableEq

/-- `createSpan`: display `chooseSense(entry) || word`, with the exact
original word stored in `data-original`. -/
def createSpan (word : Str) (entry : DictEntry) (leadingSpace trailingSpace : Bool) : RNode :=
  RNode.span (if chooseSense entry = [] then word else chooseSense entry)
    word leadingSpace trailingSpace

/-- The `prevKind` computation in `replaceInNode`. -/
def prevKindAt (segments : List Seg) (replaceSet : Finset Nat) (i : Nat) : CharKind :=
  if 0 < i then
    match segments.get? (i - 1) with
    | some (Seg.tok _ _) => if i - 1 ∈ replaceSet then CharKind.LATIN else CharKind.CJK
    | some (Seg.lit c) => charKind c
    | none => CharKind.OTHER
  else CharKind.SPACE

/-- The `nextKind`/`nextIsReplaced` computation in `replaceInNode`. -/
def nextInfoAt (segments : List Seg) (replaceSet : Finset Nat) (i : Nat) : CharKind × Bool :=
  if i < segments.length - 1 then
    match segments.get? (i + 1) with
    | some (Seg.tok _ _) =>
      if i + 1 ∈ replaceSet then (CharKind.LATIN, true) else (CharKind.CJK, false)
    | some (Seg.lit c) => (charKind c, false)
    | none => (CharKind.OTHER, false)
  else (CharKind.SPACE, false)

/-- One iteration of the output-building loop of `replaceInNode`. -/
def renderNodeAt (segments : List Seg) (replaceSet : Finset Nat) (i : Nat) (seg : Seg) : RNode :=
  match seg with
  | Seg.tok w e =>
    if i ∈ replaceSet then
      let prevKind := prevKindAt segments replaceSet i
      let next := nextInfoAt segments replaceSet i
      let leading := match prevKind with
        | CharKind.CJK => true
        | CharKind.LATIN => true
        | _ => false
      let trailing := (match next.1 with
        | CharKind.CJK => true
        | CharKind.LATIN => true
        | _ => false) && !next.2
      createSpan w e leading trailing
    else RNode.text w
  | Seg.lit c => RNode.text [c]

/-- The output-building loop of `replaceInNode` over all segments,
`i` being the current index into the full segment list. -/
def renderGo (segments : List Seg) (replaceSet : Finset Nat) : Nat → List Seg → List RNode
  | _, [] => []
  | i, seg :: rest =>
    renderNodeAt segments replaceSet i seg :: renderGo segments replaceSet (i + 1) rest

/-- The rendered fragment for a segment list and a set of replaced indices. -/
def renderRun (segments : List Seg) (replaceSet : Finset Nat) : List RNode :=
  renderGo segments replaceSet 0 segments

/-- The visible text of one output node (span text includes its baked-in
leading/trailing spaces). -/
def nodeText : RNode → Str
  | RNode.text s => s
  | RNode.span d _ ls ts => (if ls then [' '] else []) ++ d ++ (if ts then [' '] else [])

/-- The visible text of a rendered fragment. -/
def renderedText (nodes : List RNode) : Str := (nodes.map nodeText).flatten

/-- What `revertAll` leaves of one node: spans are replaced by their
`data-original` text, text nodes stay. -/
def revertNode : RNode → Str
  | RNode.text s => s
  | RNode.span _ original _ _ => original

/-- `revertAll` from content.ts, at the text level. -/
def revertAll (nodes : List RNode) : Str := (nodes.map revertNode).flatten

/-- Number of `ReplacementUnit`s (spans) in a rendered fragment. -/
def countSpans (nodes : List RNode) : Nat :=
  nodes.countP fun n => match n with | RNode.span _ _ _ _ => true | _ => false

/-- The eligible-token index collection loop of `replaceInNode`. -/
def eligibleIdxs (onlyNouns : Bool) : Nat → List Seg → List Nat
  | _, [] => []
  | i, Seg.tok _ e :: rest =>
    if tokenAllowed onlyNouns e then i :: eligibleIdxs onlyNouns (i + 1) rest
    else eligibleIdxs onlyNouns (i + 1) rest
  | i, Seg.lit _ :: rest => eligibleIdxs onlyNouns (i + 1) rest

/-- `replaceInNode` from content.ts: segment, collect eligible tokens,
sample, and build the replacement fragment (unchanged node when there is
no eligible token). -/
def replaceInNode (lookup : Str → Option DictEntry) (maxWordLen : Nat) (onlyNouns : Bool)
    (ratio : ℚ) (rs : Nat → Nat) (text : Str) : List RNode :=
  let segments := segmentChinese lookup maxWordLen text
  let tokens := eligibleIdxs onlyNouns 0 segments
  if tokens.length = 0 then [RNode.text text]
  else
    let idxs := sampleIndices tokens.length ratio rs
    let replaceSet := idxs.image fun k => tokens.getD k 0
    renderGo segments replaceSet 0 segments

/-- One entry of `index.json`'s `groups` map: `{file, count, maxLen}`. -/
structure GroupMeta where
  file : Str
  count : Nat := 0
  maxLen : Nat := 0
  deriving DecidableEq

/-- The dictionary index `{groupSize, groups}`; group ids `g<idx>` are
modelled by their numeric index. -/
structure IndexMeta where
  groupSize : Nat
  groups : List (Nat × GroupMeta)
  deriving DecidableEq

/-- A dictionary chunk file `{maxLen, entries}`. -/
structure Chunk where
  maxLen : Nat
  entries : List (Str × DictEntry)

/-- The host environment as the content script observes it: whether the
extension context is alive, and the outcome of each fetch (`none` models a
failed or malformed fetch). -/
structure Env where
  alive : Bool
  fetchIndex : Option IndexMeta
  fetchChunk : Str → Option Chunk

/-- The module-level mutable dictionary state of content.ts:
`indexMeta`, `loadedGroups`, `DICT` (later loads shadow earlier ones, as
`Map.set` overwrites), and `MAX_WORD_LEN`. -/
structure DictState where
  indexMeta : Option IndexMeta
  loadedGroups : Finset Nat
  dict : List (Str × DictEntry)
  maxWordLen : Nat

/-- `groupIdForChar` from content.ts: 512-codepoint buckets from 0x4E00. -/
def groupIdForChar (ch : Char) : Option Nat :=
  if ch.toNat < 0x4E00 ∨ 0x9FFF < ch.toNat then none
  else some ((ch.toNat - 0x4E00) / 512)

/-- `ensureIndex` from content.ts: at-most-once load; a failed fetch
substitutes the empty index `{groupSize: 512, groups: {}}`. -/
def ensureIndex (env : Env) (st : DictState) : DictState :=
  match st.indexMeta with
  | some _ => st
  | none =>
    if env.alive = false then st
    else
      match env.fetchIndex with
      | some m => { st with indexMeta := some m }
      | none => { st with indexMeta := some { groupSize := 512, groups := [] } }

/-- Lookup of a group id in the index's `groups` map. -/
def indexLookup (m : IndexMeta) (gid : Nat) : Option GroupMeta :=
  (m.groups.find? fun p => decide (p.1 = gid)).map (·.2)

/-- `ensureGroupLoaded` from content.ts.  The chunk's entries are merged
into `DICT` (later entries shadow earlier ones, hence the prepend-fold),
`MAX_WORD_LEN` is raised, and the group is marked loaded on every exit
path past the membership test — also on fetch failure or when the id is
absent from the index. -/
def ensureGroupLoaded (env : Env) (ch : Char) (st : DictState) : DictState :=
  if env.alive = false then st
  else
    match groupIdForChar ch with
    | none => st
    | some gid =>
      if gid ∈ st.loadedGroups then st
      else
        let st1 := ensureIndex env st
        match st1.indexMeta with
        | none => st1
        | some m =>
          match indexLookup m gid with
          | none => { st1 with loadedGroups := insert gid st1.loadedGroups }
          | some meta =>
            match env.fetchChunk meta.file with
            | none => { st1 with loadedGroups := insert gid st1.loadedGroups }
            | some chunk =>
              { st1 with
                maxWordLen := if st1.maxWordLen < chunk.maxLen then chunk.maxLen else st1.maxWordLen,
                dict := chunk.entries.foldl (fun d p => p :: d) st1.dict,
                loadedGroups := insert gid st1.loadedGroups }

/-- A compiled blacklist pattern.  `escapeRe` makes every character of the
raw pattern literal, after which `\*` becomes `.*` and `\?` becomes `.`,
so the compiled regex is exactly: star runs, single-char wildcards, and
case-insensitively matched literal characters. -/
inductive PatItem
  | star
  | qmark
  | lit (c : Char)
  deriving DecidableEq

/-- The body translation of `patToRegExp` (wildcards to regex items). -/
def parsePat (s : Str) : List PatItem :=
  s.map fun c => if c = '*' then PatItem.star else if c = '?' then PatItem.qmark else PatItem.lit c

/-- `patToRegExp` from content.ts: `null` for an empty (after trim) or
`#`-comment pattern; the regex construction itself cannot throw once the
input is escaped, so those are the only `null` outcomes. -/
def patToRegExp (pat : Str) : Option (List PatItem) :=
  let raw := trimStr pat
  if raw = [] then none
  else if raw.headD ' ' = '#' then none
  else some (parsePat raw)

/-- `compilePatternLists` from content.ts: `bl.map(patToRegExp).filter(Boolean)`. -/
def compilePatternLists (blacklist : List Str) : List (List PatItem) :=
  (blacklist.map patToRegExp).reduceOption

/-- JS line terminators (never matched by `.` without the `s` flag). -/
def lineTerm (c : Char) : Bool :=
  c = '\n' ∨ c = '\r' ∨ c = Char.ofNat 0x2028 ∨ c = Char.ofNat 0x2029

/-- The suffixes reachable by letting a `.*` consume characters (it cannot
consume a line terminator). -/
def starSuffixes : Str → List Str
  | [] => [[]]
  | d :: ds => (d :: ds) :: (if lineTerm d then [] else starSuffixes ds)

/-- Anchored, case-insensitive match of a compiled pattern (`re.test`). -/
def wildMatch : List PatItem → Str → Bool
  | [], s => decide (s = [])
  | PatItem.lit c :: ps, s =>
    match s with
    | [] => false
    | d :: ds => decide (c.toLower = d.toLower) && wildMatch ps ds
  | PatItem.qmark :: ps, s =>
    match s with
    | [] => false
    | d :: ds => !lineTerm d && wildMatch ps ds
  | PatItem.star :: ps, s => (starSuffixes s).any fun t => wildMatch ps t

/-- `urlMatchesAny` from content.ts. -/
def urlMatchesAny (reList : List (List PatItem)) (url : Str) : Bool :=
  reList.any fun re => wildMatch re url

/-- `settingsAllow` from content.ts (default ON, blacklist disables). -/
def settingsAllow (enabled : Bool) (blacklistRe : List (List PatItem)) (href : Str) : Bool :=
  if enabled = false then false
  else if blacklistRe.length ≠ 0 ∧ urlMatchesAny blacklistRe href then false
  else true

/-- The tiny inline development dictionary installed at script start. -/
def devEntry1 : DictEntry := { en := [los "hello"], py := los "ni3 hao3", tag := los "common" }

def devEntry2 : DictEntry := { en := [los "study", los "learn"], py := los "xue2 xi2", tag := los "common" }

def devEntry3 : DictEntry := { en := [los "research"], py := los "yan2 jiu1", tag := los "academic" }

/-- Lookup in the inline development dictionary (你好, 学习, 研究). -/
def devLookup : Str → Option DictEntry := fun w =>
  if w = los "你好" then some devEntry1
  else if w = los "学习" then some devEntry2
  else if w = los "研究" then some devEntry3
  else none

lemma ratFloor_eqInt (q : ℚ) : Rat.floor q = ⌊q⌋ := by
  rw [Rat.floor_def', Rat.floor_def]

lemma sampleTarget_zero (n : Nat) : sampleTarget n 0 = 1 := by
  simp [sampleTarget, ratFloor_eqInt]

lemma sampleTarget_one (n : Nat) : sampleTarget n 1 = max 1 n := by
  simp [sampleTarget, ratFloor_eqInt]

lemma sampleTarget_pos (n : Nat) (p : ℚ) : 1 ≤ sampleTarget n p :=
  le_max_left _ _

lemma sampleGo_zero (n target : Nat) (rs : Nat → Nat) (i : Nat) (acc : Finset Nat) :
    sampleGo n target rs 0 i acc = acc := rfl

lemma sampleGo_succ (n target : Nat) (rs : Nat → Nat) (f i : Nat) (acc : Finset Nat) :
    sampleGo n target rs (f + 1) i acc =
      if acc.card < target then sampleGo n target rs f (i + 1) (insert (rs i % n) acc)
      else acc := rfl

lemma sampleGo_subset (n target : Nat) (rs : Nat → Nat) :
    ∀ (fuel i : Nat) (acc : Finset Nat), acc ⊆ sampleGo n target rs fuel i acc := by
  intro fuel
  induction fuel with
  | zero => intro i acc; rw [sampleGo_zero]
  | succ f ih =>
    intro i acc
    rw [sampleGo_succ]
    by_cases h : acc.card < target
    · rw [if_pos h]
      exact (Finset.subset_insert _ _).trans (ih (i + 1) _)
    · rw [if_neg h]

lemma sampleGo_mem_lt (n target : Nat) (rs : Nat → Nat) (hn : 0 < n) :
    ∀ (fuel i : Nat) (acc : Finset Nat), (∀ x ∈ acc, x < n) →
      ∀ x ∈ sampleGo n target rs fuel i acc, x < n := by
  intro fuel
  induction fuel with
  | zero => intro i acc h x hx; rw [sampleGo_zero] at hx; exact h x hx
  | succ f ih =>
    intro i acc h x hx
    rw [sampleGo_succ] at hx
    by_cases hc : acc.card < target
    · rw [if_pos hc] at hx
      refine ih (i + 1) _ ?_ x hx
      intro y hy
      rcases Finset.mem_insert.mp hy with h1 | h2
      · subst h1; exact Nat.mod_lt _ hn
      · exact h y h2
    · rw [if_neg hc] at hx; exact h x hx

lemma sampleGo_card_le (n target : Nat) (rs : Nat → Nat) :
    ∀ (fuel i : Nat) (acc : Finset Nat), acc.card ≤ target →
      (sampleGo n target rs fuel i acc).card ≤ target := by
  intro fuel
  induction fuel with
  | zero => intro i acc h; rw [sampleGo_zero]; exact h
  | succ f ih =>
    intro i acc h
    rw [sampleGo_succ]
    by_cases hc : acc.card < target
    · rw [if_pos hc]
      exact ih (i + 1) _ ((Finset.card_insert_le _ _).trans hc)
    · rw [if_neg hc]; exact h

lemma sampleGo_stop (n target : Nat) (rs : Nat → Nat) (fuel i : Nat) (acc : Finset Nat)
    (h : target ≤ acc.card) : sampleGo n target rs fuel i acc = acc := by
  cases fuel with
  | zero => rfl
  | succ f => rw [sampleGo_succ, if_neg (not_lt.mpr h)]

/-- Claim C2: for every eligible-token count `k` and ratio `p ∈ [0,1]`, the
sampler returns only indices in `[0, k)`, never more than
`max(1, ⌊k·p⌋)` of them, and at least one whenever `k ≥ 1` and `p > 0`
(this holds for every stream of random draws). -/
theorem sampleIndices_ratio_bound (k : Nat) (p : ℚ) (rs : Nat → Nat)
    (hp0 : 0 ≤ p) (hp1 : p ≤ 1) :
    (∀ x ∈ sampleIndices k p rs, x < k) ∧
    (sampleIndices k p rs).card ≤ max 1 (Int.toNat ⌊(k : ℚ) * p⌋) ∧
    (1 ≤ k → 0 < p → 1 ≤ (sampleIndices k p rs).card) := by
  have htarget : max 1 (Int.toNat ⌊(k : ℚ) * p⌋) = sampleTarget k p := by
    rw [sampleTarget, ratFloor_eqInt]
  refine ⟨?_, ?_, ?_⟩
  · intro x hx
    rcases Nat.eq_zero_or_pos k with hk | hk
    · subst hk
      simp only [sampleIndices, Nat.mul_zero, sampleGo_zero] at hx
      exact absurd hx (Finset.not_mem_empty x)
    · exact sampleGo_mem_lt k _ rs hk _ 0 ∅ (fun y hy => absurd hy (Finset.not_mem_empty y)) x hx
  · rw [htarget]
    exact sampleGo_card_le _ _ _ _ _ _ (by simp)
  · intro hk _
    obtain ⟨f, hf⟩ : ∃ f, 3 * k = f + 1 := ⟨3 * k - 1, by omega⟩
    unfold sampleIndices
    rw [hf, sampleGo_succ, if_pos (by simpa using sampleTarget_pos k p)]
    calc 1 = (insert (rs 0 % k) (∅ : Finset Nat)).card := by simp
    _ ≤ _ := Finset.card_le_card (sampleGo_subset _ _ _ _ _ _)

theorem sampleIndices_ratio_bound_witness :
    (0 : ℚ) ≤ 1 / 2 ∧ (1 / 2 : ℚ) ≤ 1 ∧
    ((∀ x ∈ sampleIndices 2 (1 / 2) (fun i => i), x < 2) ∧
     (sampleIndices 2 (1 / 2) (fun i => i)).card ≤ max 1 (Int.toNat ⌊(2 : ℚ) * (1 / 2)⌋) ∧
     (1 ≤ 2 → (0 : ℚ) < 1 / 2 → 1 ≤ (sampleIndices 2 (1 / 2) (fun i => i)).card)) :=
  ⟨by norm_num, by norm_num,
    sampleIndices_ratio_bound 2 (1 / 2) (fun i => i) (by norm_num) (by norm_num)⟩

/-- Claim C1 (amended): with ratio `0` and `k ≥ 1` eligible tokens the
sampler still selects exactly one index, because the target is
`max(1, ⌊k·0⌋) = 1`. -/
theorem sampleIndices_ratio_zero_card (k : Nat) (rs : Nat → Nat) (hk : 1 ≤ k) :
    (sampleIndices k 0 rs).card = 1 := by
  obtain ⟨f, hf⟩ : ∃ f, 3 * k = f + 1 := ⟨3 * k - 1, by omega⟩
  unfold sampleIndices
  rw [sampleTarget_zero, hf, sampleGo_succ, if_pos (by simp)]
  rw [sampleGo_stop _ _ _ _ _ _ (by simp)]
  simp

theorem sampleIndices_ratio_zero_card_witness :
    1 ≤ 2 ∧ (sampleIndices 2 0 (fun i => i)).card = 1 :=
  ⟨by decide, sampleIndices_ratio_zero_card 2 (fun i => i) (by decide)⟩

/-- Claim C1 (counterexample): processing `"abc你好"` with ratio `0`
(`onlyNouns` off, inline dictionary, any random stream — here the constant
one) does *not* leave the text unchanged: one token is still replaced, the
output text is `"abc hello"` and one ReplacementUnit is created. -/
theorem ratio_zero_replaces_counterexample :
    renderedText (replaceInNode devLookup 2 false 0 (fun _ => 0) (los "abc你好")) = los "abc hello" ∧
    renderedText (replaceInNode devLookup 2 false 0 (fun _ => 0) (los "abc你好")) ≠ los "abc你好" ∧
    countSpans (replaceInNode devLookup 2 false 0 (fun _ => 0) (los "abc你好")) = 1 := by
  refine ⟨?_, ?_, ?_⟩ <;>
    · simp only [replaceInNode, sampleIndices, sampleTarget_zero]
      decide

/-- Claim C5: on the two-entry dictionary with input `"你好学习"`,
ratio `1.0`, `onlyNouns` off and both tokens drawn: the segmentation is
`[Token(你好), Token(学习)]`, the display sense of 学习 is the shortest
sense `"study"`, the rendered nodes are the two spans with a single space
baked into the second one only, the visible text is `"hello study"`, and
revert restores `"你好学习"`. -/
theorem example_nihao_xuexi :
    segmentChinese devLookup 2 (los "你好学习") =
      [Seg.tok (los "你好") devEntry1, Seg.tok (los "学习") devEntry2] ∧
    chooseSense devEntry2 = los "study" ∧
    replaceInNode devLookup 2 false 1 (fun i => i) (los "你好学习") =
      [RNode.span (los "hello") (los "你好") false false,
       RNode.span (los "study") (los "学习") true false] ∧
    renderedText (replaceInNode devLookup 2 false 1 (fun i => i) (los "你好学习")) =
      los "hello study" ∧
    revertAll (replaceInNode devLookup 2 false 1 (fun i => i) (los "你好学习")) =
      los "你好学习" := by
  refine ⟨by decide, by decide, ?_, ?_, ?_⟩ <;>
    · simp only [replaceInNode, sampleIndices, sampleTarget_one]
      decide

lemma findMatch_some (lookup : Str → Option DictEntry) (s : Str) :
    ∀ (n : Nat) (w : Str) (e : DictEntry), findMatch lookup s n = some (w, e) → n ≤ s.length →
      lookup w = some e ∧ w = s.take w.length ∧ 1 ≤ w.length ∧ w.length ≤ n ∧
      ∀ l, w.length < l → l ≤ n → lookup (s.take l) = none := by
  intro n
  induction n with
  | zero => intro w e h _; exact absurd h (by simp [findMatch])
  | succ m ih =>
    intro w e h hn
    simp only [findMatch] at h
    cases hlk : lookup (s.take (m + 1)) with
    | some e2 =>
      rw [hlk] at h
      simp only [Option.some.injEq, Prod.mk.injEq] at h
      obtain ⟨hw, he⟩ := h
      subst he
      subst hw
      have hlen : (s.take (m + 1)).length = m + 1 := by
        rw [List.length_take]; omega
      refine ⟨hlk, ?_, ?_, ?_, ?_⟩
      · rw [hlen]
      · rw [hlen]; omega
      · rw [hlen]
      · intro l h1 h2
        rw [hlen] at h1
        exact absurd (h1.trans_le h2) (lt_irrefl _)
    | none =>
      rw [hlk] at h
      have hm : m ≤ s.length := le_trans (Nat.le_succ m) hn
      obtain ⟨h1, h2, h3, h4, h5⟩ := ih w e h hm
      refine ⟨h1, h2, h3, h4.trans (Nat.le_succ m), ?_⟩
      intro l hl1 hl2
      rcases Nat.lt_or_ge l (m + 1) with hcase | hcase
      · exact h5 l hl1 (by omega)
      · have hl : l = m + 1 := by omega
        subst hl; exact hlk

lemma findMatch_none (lookup : Str → Option DictEntry) (s : Str) :
    ∀ n, findMatch lookup s n = none → ∀ l, 1 ≤ l → l ≤ n → lookup (s.take l) = none := by
  intro n
  induction n with
  | zero => intro _ l h1 h2; exact absurd (h1.trans h2) (by omega)
  | succ m ih =>
    intro h l h1 h2
    simp only [findMatch] at h
    cases hlk : lookup (s.take (m + 1)) with
    | some e2 => rw [hlk] at h; exact absurd h (by simp)
    | none =>
      rw [hlk] at h
      rcases Nat.lt_or_ge l (m + 1) with hcase | hcase
      · exact ih h l h1 (by omega)
      · have hl : l = m + 1 := by omega
        subst hl; exact hlk

lemma segGo_nil (lookup : Str → Option DictEntry) (maxWordLen fuel : Nat) :
    segGo lookup maxWordLen fuel [] = [] := by
  cases fuel <;> rfl

lemma segGo_cons_tok {lookup : Str → Option DictEntry} {maxWordLen : Nat} {c : Char}
    {rest w : Str} {e : DictEntry} (fuel : Nat) (hc : isCJK c = true)
    (hfm : findMatch lookup (c :: rest) (min maxWordLen (rest.length + 1)) = some (w, e)) :
    segGo lookup maxWordLen (fuel + 1) (c :: rest) =
      Seg.tok w e :: segGo lookup maxWordLen fuel (List.drop w.length (c :: rest)) := by
  simp [segGo, hc, hfm]

lemma segGo_cons_lit {lookup : Str → Option DictEntry} {maxWordLen : Nat} {c : Char}
    {rest : Str} (fuel : Nat) (hc : isCJK c = true)
    (hfm : findMatch lookup (c :: rest) (min maxWordLen (rest.length + 1)) = none) :
    segGo lookup maxWordLen (fuel + 1) (c :: rest) =
      Seg.lit c :: segGo lookup maxWordLen fuel rest := by
  simp [segGo, hc, hfm]

lemma segGo_cons_noncjk {lookup : Str → Option DictEntry} {maxWordLen : Nat} {c : Char}
    {rest : Str} (fuel : Nat) (hc : isCJK c = false) :
    segGo lookup maxWordLen (fuel + 1) (c :: rest) =
      Seg.lit c :: segGo lookup maxWordLen fuel rest := by
  simp [segGo, hc]

lemma segGo_fuel (lookup : Str → Option DictEntry) (maxWordLen : Nat) :
    ∀ (f1 f2 : Nat) (s : Str), s.length ≤ f1 → s.length ≤ f2 →
      segGo lookup maxWordLen f1 s = segGo lookup maxWordLen f2 s := by
  intro f1
  induction f1 with
  | zero =>
    intro f2 s h1 _
    have hs : s = [] := List.length_eq_zero.mp (Nat.le_zero.mp h1)
    subst hs
    rw [segGo_nil, segGo_nil]
  | succ f ih =>
    intro f2 s h1 h2
    cases s with
    | nil => rw [segGo_nil, segGo_nil]
    | cons c rest =>
      obtain ⟨f2m, rfl⟩ : ∃ f2m, f2 = f2m + 1 := by
        refine ⟨f2 - 1, ?_⟩
        simp only [List.length_cons] at h2
        omega
      simp only [List.length_cons] at h1 h2
      by_cases hc : isCJK c
      · cases hfm : findMatch lookup (c :: rest) (min maxWordLen (rest.length + 1)) with
        | some we =>
          obtain ⟨w, e⟩ := we
          have hmin : min maxWordLen (rest.length + 1) ≤ (c :: rest).length := by
            simp only [List.length_cons]
            omega
          obtain ⟨_, _, hw1, _, _⟩ := findMatch_some lookup (c :: rest) _ w e hfm hmin
          rw [segGo_cons_tok f hc hfm, segGo_cons_tok f2m hc hfm]
          congr 1
          apply ih
          · simp only [List.length_drop, List.length_cons]; omega
          · simp only [List.length_drop, List.length_cons]; omega
        | none =>
          rw [segGo_cons_lit f hc hfm, segGo_cons_lit f2m hc hfm]
          congr 1
          exact ih f2m rest (by omega) (by omega)
      · have hc2 : isCJK c = false := by simpa using hc
        rw [segGo_cons_noncjk f hc2, segGo_cons_noncjk f2m hc2]
        congr 1
        exact ih f2m rest (by omega) (by omega)

lemma segGo_join (lookup : Str → Option DictEntry) (maxWordLen : Nat) :
    ∀ (fuel : Nat) (s : Str), s.length ≤ fuel →
      ((segGo lookup maxWordLen fuel s).map segText).flatten = s := by
  intro fuel
  induction fuel with
  | zero =>
    intro s h
    have hs : s = [] := List.length_eq_zero.mp (Nat.le_zero.mp h)
    subst hs; rfl
  | succ f ih =>
    intro s h
    cases s with
    | nil => rw [segGo_nil]; rfl
    | cons c rest =>
      simp only [List.length_cons] at h
      by_cases hc : isCJK c
      · cases hfm : findMatch lookup (c :: rest) (min maxWordLen (rest.length + 1)) with
        | some we =>
          obtain ⟨w, e⟩ := we
          have hmin : min maxWordLen (rest.length + 1) ≤ (c :: rest).length := by
            simp only [List.length_cons]; omega
          obtain ⟨_, hw2, hw1, _, _⟩ := findMatch_some lookup (c :: rest) _ w e hfm hmin
          rw [segGo_cons_tok f hc hfm]
          simp only [List.map_cons, List.flatten_cons, segText]
          rw [ih _ (by simp only [List.length_drop, List.length_cons]; omega)]
          conv_rhs => rw [← List.take_append_drop w.length (c :: rest)]
          rw [← hw2]
        | none =>
          rw [segGo_cons_lit f hc hfm]
          simp only [List.map_cons, List.flatten_cons, segText]
          rw [ih rest (by omega)]
          rfl
      · have hc2 : isCJK c = false := by simpa using hc
        rw [segGo_cons_noncjk f hc2]
        simp only [List.map_cons, List.flatten_cons, segText]
        rw [ih rest (by omega)]
        rfl

/-- Claim C9: concatenating the segments of `segmentChinese` — each Token's
matched word and each Literal's character — restores the input exactly,
for every dictionary state. -/
theorem segmentChinese_lossless (lookup : Str → Option DictEntry) (maxWordLen : Nat)
    (text : Str) :
    ((segmentChinese lookup maxWordLen text).map segText).flatten = text :=
  segGo_join lookup maxWordLen text.length text le_rfl

/-- Claim C4: the scan is left to right.  At a CJK head character the
segmenter tries lengths from `min(MAX_WORD_LEN, remaining)` down to 1 and
accepts the first dictionary hit as a Token — so the emitted token is in
the dictionary, covers exactly the text at that position, and no strictly
longer substring within the length cap is in the dictionary (never a
shorter match when a longer one also matches); with no hit the single CJK
character becomes a one-character Literal and the scan advances by one;
a non-CJK head character always becomes a one-character Literal.  Every
scan position processes a suffix, so this characterizes all positions. -/
theorem segmentChinese_greedy (lookup : Str → Option DictEntry) (maxWordLen : Nat)
    (c : Char) (rest : Str) :
    (isCJK c = true →
      ∀ (w : Str) (e : DictEntry),
        findMatch lookup (c :: rest) (min maxWordLen (rest.length + 1)) = some (w, e) →
        segmentChinese lookup maxWordLen (c :: rest) =
            Seg.tok w e :: segmentChinese lookup maxWordLen ((c :: rest).drop w.length) ∧
          lookup w = some e ∧ w = (c :: rest).take w.length ∧ 1 ≤ w.length ∧
          w.length ≤ min maxWordLen (rest.length + 1) ∧
          ∀ l, w.length < l → l ≤ min maxWordLen (rest.length + 1) →
            lookup ((c :: rest).take l) = none) ∧
    (isCJK c = true →
      findMatch lookup (c :: rest) (min maxWordLen (rest.length + 1)) = none →
        segmentChinese lookup maxWordLen (c :: rest) =
            Seg.lit c :: segmentChinese lookup maxWordLen rest ∧
          ∀ l, 1 ≤ l → l ≤ min maxWordLen (rest.length + 1) →
            lookup ((c :: rest).take l) = none) ∧
    (isCJK c = false →
      segmentChinese lookup maxWordLen (c :: rest) =
        Seg.lit c :: segmentChinese lookup maxWordLen rest) := by
  refine ⟨?_, ?_, ?_⟩
  · intro hc w e hfm
    have hmin : min maxWordLen (rest.length + 1) ≤ (c :: rest).length := by
      simp only [List.length_cons]; omega
    obtain ⟨h1, h2, h3, h4, h5⟩ := findMatch_some lookup (c :: rest) _ w e hfm hmin
    refine ⟨?_, h1, h2, h3, h4, h5⟩
    show segGo lookup maxWordLen (c :: rest).length (c :: rest) = _
    rw [show (c :: rest).length = rest.length + 1 from rfl, segGo_cons_tok _ hc hfm]
    congr 1
    apply segGo_fuel
    · simp only [List.length_drop, List.length_cons]; omega
    · exact le_rfl
  · intro hc hfm
    refine ⟨?_, findMatch_none lookup (c :: rest) _ hfm⟩
    show segGo lookup maxWordLen (c :: rest).length (c :: rest) = _
    rw [show (c :: rest).length = rest.length + 1 from rfl, segGo_cons_lit _ hc hfm]
    rfl
  · intro hc
    show segGo lookup maxWordLen (c :: rest).length (c :: rest) = _
    rw [show (c :: rest).length = rest.length + 1 from rfl, segGo_cons_noncjk _ hc]
    rfl

theorem segmentChinese_greedy_witness :
    segmentChinese devLookup 2 ('你' :: los "好x") =
        Seg.tok (los "你好") devEntry1 ::
          segmentChinese devLookup 2 (('你' :: los "好x").drop (los "你好").length) ∧
      devLookup (los "你好") = some devEntry1 ∧
      los "你好" = ('你' :: los "好x").take (los "你好").length ∧
      1 ≤ (los "你好").length ∧
      (los "你好").length ≤ min 2 ((los "好x").length + 1) ∧
      ∀ l, (los "你好").length < l → l ≤ min 2 ((los "好x").length + 1) →
        devLookup (('你' :: los "好x").take l) = none :=
  (segmentChinese_greedy devLookup 2 '你' (los "好x")).1 (by decide)
    (los "你好") devEntry1 (by decide)

lemma revertNode_renderNodeAt (segments : List Seg) (rset : Finset Nat) (i : Nat) (seg : Seg) :
    revertNode (renderNodeAt segments rset i seg) = segText seg := by
  cases seg with
  | lit c => rfl
  | tok w e =>
    by_cases h : i ∈ rset
    · simp [renderNodeAt, h, createSpan, revertNode, segText]
    · simp [renderNodeAt, h, revertNode, segText]

lemma renderGo_revert (segments : List Seg) (rset : Finset Nat) :
    ∀ (rem : List Seg) (i : Nat),
      ((renderGo segments rset i rem).map revertNode).flatten = (rem.map segText).flatten := by
  intro rem
  induction rem with
  | nil => intro i; rfl
  | cons seg rest ih =>
    intro i
    simp only [renderGo, List.map_cons, List.flatten_cons, ih (i + 1),
      revertNode_renderNodeAt]

lemma renderGo_get (segments : List Seg) (rset : Finset Nat) :
    ∀ (rem : List Seg) (i j : Nat),
      (renderGo segments rset i rem).get? j =
        (rem.get? j).map fun sg => renderNodeAt segments rset (i + j) sg := by
  intro rem
  induction rem with
  | nil => intro i j; simp [renderGo]
  | cons seg rest ih =>
    intro i j
    cases j with
    | zero => simp [renderGo]
    | succ jm =>
      simp only [renderGo, List.get?_cons_succ]
      rw [ih (i + 1) jm]
      have harith : i + 1 + jm = i + (jm + 1) := by omega
      rw [harith]

/-- Claim C3: for every run, dictionary state and selection, reverting the
rendered output restores the run exactly (each span's `data-original` holds
the exact original word, and the inserted display text and spacing live
only inside the span, so nothing is left behind). -/
theorem revert_render_roundtrip (lookup : Str → Option DictEntry) (maxWordLen : Nat)
    (text : Str) (rset : Finset Nat) :
    revertAll (renderRun (segmentChinese lookup maxWordLen text) rset) = text ∧
    ∀ (i : Nat) (w : Str) (e : DictEntry),
      (segmentChinese lookup maxWordLen text).get? i = some (Seg.tok w e) → i ∈ rset →
      ∃ (d : Str) (ld tr : Bool),
        (renderRun (segmentChinese lookup maxWordLen text) rset).get? i =
          some (RNode.span d w ld tr) := by
  constructor
  · rw [revertAll, renderRun, renderGo_revert]
    exact segmentChinese_lossless lookup maxWordLen text
  · intro i w e hget hmem
    rw [renderRun, renderGo_get, hget]
    simp only [Nat.zero_add, Option.map_some']
    simp only [renderNodeAt, if_pos hmem, createSpan]
    exact ⟨_, _, _, rfl⟩

theorem revert_render_roundtrip_witness :
    ∃ (d : Str) (ld tr : Bool),
      (renderRun (segmentChinese devLookup 2 (los "你好")) ({0} : Finset Nat)).get? 0 =
        some (RNode.span d (los "你好") ld tr) :=
  (revert_render_roundtrip devLookup 2 (los "你好") ({0} : Finset Nat)).2 0
    (los "你好") devEntry1 (by decide) (by decide)

lemma segGo_tok_ne_nil (lookup : Str → Option DictEntry) (maxWordLen : Nat) :
    ∀ (fuel : Nat) (s : Str), s.length ≤ fuel →
      ∀ (w : Str) (e : DictEntry), Seg.tok w e ∈ segGo lookup maxWordLen fuel s → w ≠ [] := by
  intro fuel
  induction fuel with
  | zero =>
    intro s h w e hmem
    have hs : s = [] := List.length_eq_zero.mp (Nat.le_zero.mp h)
    subst hs
    rw [segGo_nil] at hmem
    exact absurd hmem (List.not_mem_nil _)
  | succ f ih =>
    intro s h w e hmem
    cases s with
    | nil =>
      rw [segGo_nil] at hmem
      exact absurd hmem (List.not_mem_nil _)
    | cons c rest =>
      simp only [List.length_cons] at h
      by_cases hc : isCJK c
      · cases hfm : findMatch lookup (c :: rest) (min maxWordLen (rest.length + 1)) with
        | some we =>
          obtain ⟨w2, e2⟩ := we
          have hmin : min maxWordLen (rest.length + 1) ≤ (c :: rest).length := by
            simp only [List.length_cons]; omega
          obtain ⟨_, _, hw1, _, _⟩ := findMatch_some lookup (c :: rest) _ w2 e2 hfm hmin
          rw [segGo_cons_tok f hc hfm] at hmem
          rcases List.mem_cons.mp hmem with heq | htail
          · injection heq with h1 _
            subst h1
            exact List.length_pos.mp (by omega)
          · exact ih _ (by simp only [List.length_drop, List.length_cons]; omega) w e htail
        | none =>
          rw [segGo_cons_lit f hc hfm] at hmem
          rcases List.mem_cons.mp hmem with heq | htail
          · exact absurd heq (by simp)
          · exact ih rest (by omega) w e htail
      · have hc2 : isCJK c = false := by simpa using hc
        rw [segGo_cons_noncjk f hc2] at hmem
        rcases List.mem_cons.mp hmem with heq | htail
        · exact absurd heq (by simp)
        · exact ih rest (by omega) w e htail

lemma renderGo_mem (segments : List Seg) (rset : Finset Nat) :
    ∀ (rem : List Seg) (i : Nat) (x : RNode), x ∈ renderGo segments rset i rem →
      ∃ (j : Nat) (seg : Seg), seg ∈ rem ∧ x = renderNodeAt segments rset j seg := by
  intro rem
  induction rem with
  | nil => intro i x hx; exact absurd hx (List.not_mem_nil _)
  | cons seg rest ih =>
    intro i x hx
    rcases List.mem_cons.mp hx with hh | hh
    · exact ⟨i, seg, List.mem_cons_self _ _, hh⟩
    · obtain ⟨j, sg, hsg, hx2⟩ := ih (i + 1) x hh
      exact ⟨j, sg, List.mem_cons_of_mem _ hsg, hx2⟩

/-- Claim C10: `chooseSense` returns the empty string on an empty (or
missing) sense list; `createSpan` then falls back to displaying the
original word, so a span rendered from a segmentation never has empty
display text, even for a malformed entry. -/
theorem chooseSense_empty_fallback :
    (∀ (py tag : Str) (pos : Option Str),
      chooseSense { en := [], py := py, tag := tag, pos := pos } = []) ∧
    (∀ (w : Str) (e : DictEntry) (ld tr : Bool), chooseSense e = [] →
      createSpan w e ld tr = RNode.span w w ld tr) ∧
    (∀ (lookup : Str → Option DictEntry) (maxWordLen : Nat) (text : Str) (rset : Finset Nat)
      (d o : Str) (ld tr : Bool),
      RNode.span d o ld tr ∈ renderRun (segmentChinese lookup maxWordLen text) rset →
      d ≠ []) := by
  refine ⟨?_, ?_, ?_⟩
  · intro py tag pos; rfl
  · intro w e ld tr hsense
    rw [createSpan, if_pos hsense]
  · intro lookup maxWordLen text rset d o ld tr hmem
    obtain ⟨j, seg, hseg, hx⟩ := renderGo_mem _ _ _ 0 _ hmem
    cases seg with
    | lit c => simp [renderNodeAt] at hx
    | tok w2 e2 =>
      have hw2 : w2 ≠ [] :=
        segGo_tok_ne_nil lookup maxWordLen text.length text le_rfl w2 e2 hseg
      by_cases hj : j ∈ rset
      · simp only [renderNodeAt, if_pos hj, createSpan, RNode.span.injEq] at hx
        obtain ⟨hd, -, -, -⟩ := hx
        by_cases hcs : chooseSense e2 = []
        · rw [hd, if_pos hcs]; exact hw2
        · rw [hd, if_neg hcs]; exact hcs
      · simp [renderNodeAt, hj] at hx

theorem chooseSense_empty_fallback_witness :
    createSpan (los "好") { en := [] } false false =
      RNode.span (los "好") (los "好") false false ∧
    los "hello" ≠ [] :=
  ⟨chooseSense_empty_fallback.2.1 (los "好") { en := [] } false false (by decide),
   chooseSense_empty_fallback.2.2 devLookup 2 (los "你好") ({0} : Finset Nat)
      (los "hello") (los "你好") false false (by decide)⟩

/-- Claim C6: a rendered span gets a leading space exactly when the
preceding element is CJK or LATIN-ish (an adjacent token counts LATIN when
replaced and CJK when not; a literal by its character class; the run start
as SPACE), a trailing space exactly when the following element is CJK or
LATIN-ish and is not itself a replaced token, and consequently a span with
a trailing space is never directly followed by another span — so two
renderer-inserted spaces are never adjacent. -/
theorem render_spacing (segments : List Seg) (rset : Finset Nat) (i : Nat)
    (d o : Str) (ld tr : Bool)
    (h : (renderRun segments rset).get? i = some (RNode.span d o ld tr)) :
    (ld = true ↔ 0 < i ∧
      ((∃ w e, segments.get? (i - 1) = some (Seg.tok w e)) ∨
       ∃ c, segments.get? (i - 1) = some (Seg.lit c) ∧
         (charKind c = CharKind.CJK ∨ charKind c = CharKind.LATIN))) ∧
    (tr = true ↔ i + 1 < segments.length ∧
      ((∃ w e, segments.get? (i + 1) = some (Seg.tok w e) ∧ i + 1 ∉ rset) ∨
       ∃ c, segments.get? (i + 1) = some (Seg.lit c) ∧
         (charKind c = CharKind.CJK ∨ charKind c = CharKind.LATIN))) ∧
    (tr = true → ∀ (d2 o2 : Str) (ld2 tr2 : Bool),
      (renderRun segments rset).get? (i + 1) ≠ some (RNode.span d2 o2 ld2 tr2)) := by
  rw [renderRun, renderGo_get] at h
  cases hgi : segments.get? i with
  | none => rw [hgi] at h; exact absurd h (by simp)
  | some seg =>
    rw [hgi] at h
    simp only [Option.map_some', Nat.zero_add, Option.some.injEq] at h
    cases seg with
    | lit c => exact absurd h (by simp [renderNodeAt])
    | tok w e =>
      by_cases hmem : i ∈ rset
      · simp only [renderNodeAt, if_pos hmem, createSpan, RNode.span.injEq] at h
        obtain ⟨hd, ho, hld, htr⟩ := h
        have h1 : ld = true ↔ 0 < i ∧
            ((∃ w2 e2, segments.get? (i - 1) = some (Seg.tok w2 e2)) ∨
             ∃ c, segments.get? (i - 1) = some (Seg.lit c) ∧
               (charKind c = CharKind.CJK ∨ charKind c = CharKind.LATIN)) := by
          rw [← hld]
          by_cases hi : 0 < i
          · simp only [prevKindAt]
            rw [if_pos hi]
            cases hgp : segments.get? (i - 1) with
            | none => simp [hi]
            | some sg =>
              cases sg with
              | tok w2 e2 =>
                by_cases hrp : (i - 1) ∈ rset
                · simp [hrp, hi]
                · simp [hrp, hi]
              | lit c => cases hck : charKind c <;> simp [hck, hi]
          · simp only [prevKindAt]
            rw [if_neg hi]
            simp [hi]
        have hiff : i + 1 < segments.length ↔ i < segments.length - 1 := by omega
        have h2 : tr = true ↔ i + 1 < segments.length ∧
            ((∃ w2 e2, segments.get? (i + 1) = some (Seg.tok w2 e2) ∧ i + 1 ∉ rset) ∨
             ∃ c, segments.get? (i + 1) = some (Seg.lit c) ∧
               (charKind c = CharKind.CJK ∨ charKind c = CharKind.LATIN)) := by
          rw [← htr, hiff]
          by_cases hi2 : i < segments.length - 1
          · simp only [nextInfoAt]
            rw [if_pos hi2]
            cases hgn : segments.get? (i + 1) with
            | none => simp [hi2]
            | some sg =>
              cases sg with
              | tok w2 e2 =>
                by_cases hrn : (i + 1) ∈ rset
                · simp [hrn, hi2]
                · simp [hrn, hi2]
              | lit c => cases hck : charKind c <;> simp [hck, hi2]
          · simp only [nextInfoAt]
            rw [if_neg hi2]
            simp [hi2]
        refine ⟨h1, h2, ?_⟩
        intro htr2 d2 o2 ld2 tr2 hcontra
        obtain ⟨-, hcase⟩ := h2.mp htr2
        rw [renderRun, renderGo_get] at hcontra
        rcases hcase with ⟨w2, e2, hgn, hnr⟩ | ⟨c, hgn, -⟩
        · rw [hgn] at hcontra
          simp [renderNodeAt, hnr] at hcontra
        · rw [hgn] at hcontra
          simp [renderNodeAt] at hcontra
      · simp [renderNodeAt, hmem] at h

theorem render_spacing_witness :
    true = true ↔ 0 < 1 ∧
      ((∃ w e, (segmentChinese devLookup 2 (los "你好学习")).get? (1 - 1) =
          some (Seg.tok w e)) ∨
       ∃ c, (segmentChinese devLookup 2 (los "你好学习")).get? (1 - 1) =
           some (Seg.lit c) ∧
         (charKind c = CharKind.CJK ∨ charKind c = CharKind.LATIN)) :=
  (render_spacing (segmentChinese devLookup 2 (los "你好学习")) ({1} : Finset Nat) 1
    (los "study") (los "学习") true false (by decide)).1

lemma ensureIndex_loadedGroups (env : Env) (st : DictState) :
    (ensureIndex env st).loadedGroups = st.loadedGroups := by
  cases hm : st.indexMeta with
  | some m => simp [ensureIndex, hm]
  | none =>
    by_cases ha : env.alive = false
    · simp [ensureIndex, hm, ha]
    · cases hf : env.fetchIndex <;> simp [ensureIndex, hm, ha, hf]

lemma ensureIndex_isSome (env : Env) (st : DictState) (ha : env.alive = true) :
    ∃ m, (ensureIndex env st).indexMeta = some m := by
  cases hm : st.indexMeta with
  | some m => exact ⟨m, by simp [ensureIndex, hm]⟩
  | none =>
    have ha2 : ¬ env.alive = false := by simp [ha]
    cases hf : env.fetchIndex with
    | some m => exact ⟨m, by simp [ensureIndex, hm, ha2, hf]⟩
    | none =>
      exact ⟨{ groupSize := 512, groups := [] }, by simp [ensureIndex, hm, ha2, hf]⟩

lemma ensureGroupLoaded_subset (env : Env) (ch : Char) (st : DictState) :
    st.loadedGroups ⊆ (ensureGroupLoaded env ch st).loadedGroups := by
  by_cases ha : env.alive = false
  · simp [ensureGroupLoaded, ha]
  · cases hg : groupIdForChar ch with
    | none => simp [ensureGroupLoaded, ha, hg]
    | some gid =>
      by_cases hmem : gid ∈ st.loadedGroups
      · simp [ensureGroupLoaded, ha, hg, hmem]
      · cases him : (ensureIndex env st).indexMeta with
        | none =>
          simp [ensureGroupLoaded, ha, hg, hmem, him, ensureIndex_loadedGroups]
        | some m =>
          cases hil : indexLookup m gid with
          | none =>
            simp [ensureGroupLoaded, ha, hg, hmem, him, hil, ensureIndex_loadedGroups,
              Finset.subset_insert]
          | some meta =>
            cases hfc : env.fetchChunk meta.file with
            | none =>
              simp [ensureGroupLoaded, ha, hg, hmem, him, hil, hfc, ensureIndex_loadedGroups,
                Finset.subset_insert]
            | some chunk =>
              simp [ensureGroupLoaded, ha, hg, hmem, him, hil, hfc, ensureIndex_loadedGroups,
                Finset.subset_insert]

lemma ensureGroupLoaded_foldl_subset (env : Env) :
    ∀ (chs : List Char) (st : DictState),
      st.loadedGroups ⊆ (chs.foldl (fun s c => ensureGroupLoaded env c s) st).loadedGroups := by
  intro chs
  induction chs with
  | nil => intro st; exact Finset.Subset.refl _
  | cons c rest ih =>
    intro st
    exact (ensureGroupLoaded_subset env c st).trans (ih _)

/-- Claim C7: the loaded-bucket set only grows, over one call and over any
sequence of `ensureGroupLoaded` calls; a call for an already-loaded bucket
id is a no-op; and when the extension context is alive the bucket id is in
the loaded set after the call for *every* environment — index fetch
failure, bucket id absent from the index, and chunk fetch failure
included — so it is never retried. -/
theorem ensureGroupLoaded_monotone (env : Env) (st : DictState) (ch : Char) :
    st.loadedGroups ⊆ (ensureGroupLoaded env ch st).loadedGroups ∧
    (∀ chs : List Char,
      st.loadedGroups ⊆ (chs.foldl (fun s c => ensureGroupLoaded env c s) st).loadedGroups) ∧
    (∀ gid, groupIdForChar ch = some gid → gid ∈ st.loadedGroups →
      ensureGroupLoaded env ch st = st) ∧
    (env.alive = true → ∀ gid, groupIdForChar ch = some gid →
      gid ∈ (ensureGroupLoaded env ch st).loadedGroups) := by
  refine ⟨ensureGroupLoaded_subset env ch st, fun chs => ensureGroupLoaded_foldl_subset env chs st,
    ?_, ?_⟩
  · intro gid hg hmem
    by_cases ha : env.alive = false
    · simp [ensureGroupLoaded, ha]
    · simp [ensureGroupLoaded, ha, hg, hmem]
  · intro ha gid hg
    have ha2 : ¬ env.alive = false := by simp [ha]
    by_cases hmem : gid ∈ st.loadedGroups
    · simp [ensureGroupLoaded, ha2, hg, hmem]
    · obtain ⟨m, him⟩ := ensureIndex_isSome env st ha
      cases hil : indexLookup m gid with
      | none => simp [ensureGroupLoaded, ha2, hg, hmem, him, hil]
      | some meta =>
        cases hfc : env.fetchChunk meta.file with
        | none => simp [ensureGroupLoaded, ha2, hg, hmem, him, hil, hfc]
        | some chunk => simp [ensureGroupLoaded, ha2, hg, hmem, him, hil, hfc]

/-- An environment where every fetch fails, and the initial module state. -/
def env0 : Env := { alive := true, fetchIndex := none, fetchChunk := fun _ => none }

def st0 : DictState := { indexMeta := none, loadedGroups := ∅, dict := [], maxWordLen := 4 }

theorem ensureGroupLoaded_monotone_witness :
    groupIdForChar '你' = some 0 ∧ 0 ∈ (ensureGroupLoaded env0 '你' st0).loadedGroups :=
  ⟨by decide, (ensureGroupLoaded_monotone env0 st0 '你').2.2.2 rfl 0 (by decide)⟩

lemma compilePatternLists_cons_none (p : Str) (bl : List Str)
    (hp : patToRegExp p = none) :
    compilePatternLists (p :: bl) = compilePatternLists bl := by
  simp only [compilePatternLists, List.map_cons, hp, List.reduceOption_cons_of_none]

/-- Claim C8: pattern compilation yields `none` exactly for the patterns
the source rejects (empty after trim, or a `#` comment — the regex build
itself cannot throw on an escaped pattern); the compiled list keeps only
successfully compiled patterns; and dropping a `none` pattern changes
neither the compiled list nor whether any page is suppressed. -/
theorem patToRegExp_fail_ignored :
    (∀ p : Str, trimStr p = [] → patToRegExp p = none) ∧
    (∀ p : Str, (trimStr p).headD ' ' = '#' → patToRegExp p = none) ∧
    (∀ (bl : List Str), ∀ re ∈ compilePatternLists bl, ∃ q ∈ bl, patToRegExp q = some re) ∧
    (∀ (p : Str) (bl : List Str), patToRegExp p = none →
      compilePatternLists (p :: bl) = compilePatternLists bl) ∧
    (∀ (p : Str) (bl : List Str) (enabled : Bool) (url : Str), patToRegExp p = none →
      settingsAllow enabled (compilePatternLists (p :: bl)) url =
        settingsAllow enabled (compilePatternLists bl) url) := by
  refine ⟨?_, ?_, ?_, ?_, ?_⟩
  · intro p hp
    simp [patToRegExp, hp]
  · intro p hp
    rw [List.headD_eq_head?] at hp
    by_cases h0 : trimStr p = []
    · simp [patToRegExp, h0]
    · simp [patToRegExp, List.headD_eq_head?, h0, hp]
  · intro bl re hre
    rw [compilePatternLists, List.reduceOption_mem_iff, List.mem_map] at hre
    exact hre
  · intro p bl hp
    exact compilePatternLists_cons_none p bl hp
  · intro p bl enabled url hp
    rw [compilePatternLists_cons_none p bl hp]

theorem patToRegExp_fail_ignored_witness :
    patToRegExp [' '] = none ∧
    settingsAllow true (compilePatternLists ([' '] :: [los "*bad*"])) (los "x") =
      settingsAllow true (compilePatternLists [los "*bad*"]) (los "x") :=
  ⟨by decide,
   patToRegExp_fail_ignored.2.2.2.2 [' '] [los "*bad*"] true (los "x") (by decide)⟩
